import Mathlib

/-!
Verification of the `Cpp_Laboratory_Work` repository: shallow embeddings of the
lab programs (U.LAB.1, U.LAB.3, U.LAB.5, U.LAB.8, U.LAB.9, U.LAB.10) and proofs
of the stated properties.  C++ `int` is modelled as `Int` with explicit
wrap-around where arithmetic can overflow; `double` is modelled as `ℚ` (only
order comparisons occur); `throw` is modelled by returning an `Except` error
paired with the (unchanged) state, mirroring that every throw in these programs
happens before any mutation.
-/

namespace ULAB10

/-- The `Task` struct of U.LAB.10: a description, an `int` priority (a larger
number means a higher priority) and a completion flag defaulting to `false`. -/
structure Task where
  description : String
  priority : Int
  isCompleted : Bool := false
  deriving DecidableEq, Repr

/-- The exception hierarchy of U.LAB.10, flattened to one inductive: each
constructor carries the data its C++ counterpart stores in its message. -/
inductive TMError where
  | DuplicateTaskError (description : String)
  | TaskNotFoundError (msg : String)
  | NoTasksError
  deriving DecidableEq, Repr

/-- Descending-priority order used by `TaskManager::sortTasks`: after
`std::sort` with comparator `t1.priority > t2.priority`, consecutive elements
`t1` before `t2` satisfy `t2.priority ≤ t1.priority`. -/
def taskGE (t1 t2 : Task) : Prop := t2.priority ≤ t1.priority

instance : DecidableRel taskGE := fun t1 t2 => Int.decLe t2.priority t1.priority

instance : IsTotal Task taskGE := ⟨fun a b => (le_total b.priority a.priority)⟩

instance : IsTrans Task taskGE := ⟨fun _ _ _ hab hbc => le_trans hbc hab⟩

/-- `TaskManager::findTask`: first stored task whose description equals the
argument (`std::find_if` from the front), `none` playing the role of
`tasks_.end()`. -/
def findTask (tasks : List Task) (description : String) : Option Task :=
  tasks.find? (fun t => t.description == description)

/-- `TaskManager::sortTasks`: sort the vector so that the highest priority
comes first. -/
def sortTasks (tasks : List Task) : List Task :=
  List.insertionSort taskGE tasks

/-- `TaskManager::addTask`: throws `DuplicateTaskError` when a task with the
same description exists (before any mutation), otherwise appends the new task
and re-sorts. -/
def addTask (tasks : List Task) (description : String) (priority : Int) :
    Except TMError Unit × List Task :=
  if (findTask tasks description).isSome then
    (Except.error (TMError.DuplicateTaskError description), tasks)
  else
    (Except.ok (),
      sortTasks (tasks ++ [{ description := description, priority := priority,
                             isCompleted := false }]))

/-- `TaskManager::completeTask`: invalid index throws; an already-completed
task at the index throws; otherwise the flag is set and the task is erased. -/
def completeTask (tasks : List Task) (index : Nat) :
    Except TMError Unit × List Task :=
  if h : index < tasks.length then
    let task := tasks.get ⟨index, h⟩
    if task.isCompleted then
      (Except.error (TMError.TaskNotFoundError
        ("Task '" ++ task.description ++ "' is already marked completed.")), tasks)
    else
      (Except.ok (),
        (tasks.set index { task with isCompleted := true }).eraseIdx index)
  else
    (Except.error (TMError.TaskNotFoundError
      ("Task with index " ++ toString index ++ " not found or index is invalid.")),
      tasks)

/-- `TaskManager::getNextTask`: front of the vector, `NoTasksError` when
empty; it does not modify the state. -/
def getNextTask (tasks : List Task) : Except TMError Task :=
  match tasks with
  | [] => Except.error TMError.NoTasksError
  | t :: _ => Except.ok t

/-- `TaskManager::popNextTask`: front of the vector removed and returned,
`NoTasksError` when empty. -/
def popNextTask (tasks : List Task) : Except TMError Task × List Task :=
  match tasks with
  | [] => (Except.error TMError.NoTasksError, [])
  | t :: rest => (Except.ok t, rest)

/-- One display line of `TaskManager::displayTasks` (the `setw` padding of the
priority is not modelled; the text including the conditional marker is). -/
def displayLine (i : Nat) (t : Task) : String :=
  "[" ++ toString i ++ "] Prio: " ++ toString t.priority ++ " | Desc: "
    ++ t.description ++ (if t.isCompleted then " (COMPLETED)" else "")

/-- States of `tasks_` reachable from the empty manager by `addTask` calls
(a throwing call leaves the state as it was). -/
inductive ReachableAdd : List Task → Prop where
  | nil : ReachableAdd []
  | add (ts : List Task) (d : String) (p : Int) :
      ReachableAdd ts → ReachableAdd (addTask ts d p).2

/-- States of `tasks_` reachable from the empty manager by any sequence of the
public operations (`addTask`, `completeTask`, `popNextTask`; `getNextTask` and
`displayTasks` do not modify the state). -/
inductive Reachable : List Task → Prop where
  | nil : Reachable []
  | add (ts : List Task) (d : String) (p : Int) :
      Reachable ts → Reachable (addTask ts d p).2
  | complete (ts : List Task) (i : Nat) :
      Reachable ts → Reachable (completeTask ts i).2
  | pop (ts : List Task) :
      Reachable ts → Reachable (popNextTask ts).2

/-- The vector is sorted by non-increasing priority. -/
def SortedDesc (ts : List Task) : Prop := ts.Pairwise taskGE

lemma sortedDesc_sortTasks (ts : List Task) : SortedDesc (sortTasks ts) :=
  List.sorted_insertionSort taskGE ts

lemma mem_sortTasks {t : Task} {ts : List Task} : t ∈ sortTasks ts ↔ t ∈ ts :=
  (List.perm_insertionSort taskGE ts).mem_iff

lemma set_eraseIdx (l : List Task) (i : Nat) (x : Task) :
    (l.set i x).eraseIdx i = l.eraseIdx i := by
  induction l generalizing i with
  | nil => simp
  | cons a as ih =>
    cases i with
    | zero => simp [List.set, List.eraseIdx]
    | succ n => simp [List.set, List.eraseIdx, ih]

lemma completeTask_state (ts : List Task) (i : Nat) :
    (completeTask ts i).2 = ts ∨ (completeTask ts i).2 = ts.eraseIdx i := by
  unfold completeTask
  by_cases h : i < ts.length
  · simp only [h, dif_pos]
    by_cases hc : ts[i].isCompleted
    · simp [hc]
    · simp [hc, set_eraseIdx]
  · simp [h]

lemma addTask_state (ts : List Task) (d : String) (p : Int) :
    (addTask ts d p).2 = ts ∨
    (addTask ts d p).2 =
      sortTasks (ts ++ [{ description := d, priority := p, isCompleted := false }]) := by
  unfold addTask
  by_cases h : (findTask ts d).isSome
  · simp [h]
  · simp [h]

lemma reachableAdd_sortedDesc {ts : List Task} (h : ReachableAdd ts) :
    SortedDesc ts := by
  induction h with
  | nil => exact List.Pairwise.nil
  | add ts d p _ ih =>
    rcases addTask_state ts d p with h1 | h1 <;> rw [h1]
    · exact ih
    · exact sortedDesc_sortTasks _

lemma reachable_sortedDesc {ts : List Task} (h : Reachable ts) :
    SortedDesc ts := by
  induction h with
  | nil => exact List.Pairwise.nil
  | add ts d p _ ih =>
    rcases addTask_state ts d p with h1 | h1 <;> rw [h1]
    · exact ih
    · exact sortedDesc_sortTasks _
  | complete ts i _ ih =>
    rcases completeTask_state ts i with h1 | h1 <;> rw [h1]
    · exact ih
    · exact ih.sublist (List.eraseIdx_sublist ts i)
  | pop ts _ ih =>
    cases ts with
    | nil => exact List.Pairwise.nil
    | cons t rest => exact (List.pairwise_cons.mp ih).2

lemma Reachable.notCompleted {ts : List Task} (h : Reachable ts) :
    ∀ t ∈ ts, t.isCompleted = false := by
  induction h with
  | nil => intro t ht; cases ht
  | add ts d p _ ih =>
    intro t ht
    rcases addTask_state ts d p with h1 | h1 <;> rw [h1] at ht
    · exact ih t ht
    · rcases List.mem_append.mp (mem_sortTasks.mp ht) with h2 | h2
      · exact ih t h2
      · rcases List.mem_singleton.mp h2 with rfl; rfl
  | complete ts i _ ih =>
    intro t ht
    rcases completeTask_state ts i with h1 | h1 <;> rw [h1] at ht
    · exact ih t ht
    · exact ih t ((List.eraseIdx_sublist ts i).mem ht)
  | pop ts _ ih =>
    intro t ht
    cases ts with
    | nil => cases ht
    | cons a rest => exact ih t (List.mem_cons_of_mem a ht)

/-- Claim C1: in every `tasks_` state reached by `addTask` calls the vector is
sorted by descending priority, `getNextTask` and `popNextTask` return a task
whose priority is at least the priority of every stored task, and both produce
`NoTasksError` exactly when the manager holds no tasks. -/
theorem taskManager_priority_queue (ts : List Task) (h : ReachableAdd ts) :
    SortedDesc ts ∧
    (∀ nt, getNextTask ts = Except.ok nt → ∀ t ∈ ts, t.priority ≤ nt.priority) ∧
    (∀ nt, (popNextTask ts).1 = Except.ok nt → ∀ t ∈ ts, t.priority ≤ nt.priority) ∧
    (getNextTask ts = Except.error TMError.NoTasksError ↔ ts = []) ∧
    ((popNextTask ts).1 = Except.error TMError.NoTasksError ↔ ts = []) := by
  have hs := reachableAdd_sortedDesc h
  refine ⟨hs, ?_, ?_, ?_, ?_⟩
  · intro nt hnt t ht
    cases ts with
    | nil => cases ht
    | cons a rest =>
      cases hnt
      rcases List.mem_cons.mp ht with rfl | h2
      · exact le_refl _
      · exact (List.pairwise_cons.mp hs).1 t h2
  · intro nt hnt t ht
    cases ts with
    | nil => cases hnt
    | cons a rest =>
      cases hnt
      rcases List.mem_cons.mp ht with rfl | h2
      · exact le_refl _
      · exact (List.pairwise_cons.mp hs).1 t h2
  · cases ts with
    | nil => simp [getNextTask]
    | cons a rest => simp [getNextTask]
  · cases ts with
    | nil => simp [popNextTask]
    | cons a rest => simp [popNextTask]

/-- Witness for C1 at the concrete state reached by adding tasks "a" (priority
1) and then "b" (priority 2). -/
theorem taskManager_priority_queue_witness :
    SortedDesc (addTask (addTask [] "a" 1).2 "b" 2).2 ∧
    (∀ nt, getNextTask (addTask (addTask [] "a" 1).2 "b" 2).2 = Except.ok nt →
      ∀ t ∈ (addTask (addTask [] "a" 1).2 "b" 2).2, t.priority ≤ nt.priority) ∧
    (∀ nt, (popNextTask (addTask (addTask [] "a" 1).2 "b" 2).2).1 = Except.ok nt →
      ∀ t ∈ (addTask (addTask [] "a" 1).2 "b" 2).2, t.priority ≤ nt.priority) ∧
    (getNextTask (addTask (addTask [] "a" 1).2 "b" 2).2 =
        Except.error TMError.NoTasksError ↔ (addTask (addTask [] "a" 1).2 "b" 2).2 = []) ∧
    ((popNextTask (addTask (addTask [] "a" 1).2 "b" 2).2).1 =
        Except.error TMError.NoTasksError ↔ (addTask (addTask [] "a" 1).2 "b" 2).2 = []) :=
  taskManager_priority_queue _
    (ReachableAdd.add _ "b" 2 (ReachableAdd.add _ "a" 1 ReachableAdd.nil))

/-- Claim C2: `addTask` produces `DuplicateTaskError` if and only if a task
with the same description is already stored; on a throw the stored list is
completely unchanged, no other error is possible, and on success the new list
holds exactly one new task with the given description and priority on top of
the previous tasks. -/
theorem addTask_duplicate_spec (ts : List Task) (d : String) (p : Int) :
    ((addTask ts d p).1 = Except.error (TMError.DuplicateTaskError d) ↔
      ∃ t ∈ ts, t.description = d) ∧
    (∀ e, (addTask ts d p).1 = Except.error e → (addTask ts d p).2 = ts) ∧
    (∀ e, (addTask ts d p).1 = Except.error e → e = TMError.DuplicateTaskError d) ∧
    ((addTask ts d p).1 = Except.ok () →
      List.Perm (addTask ts d p).2
        ({ description := d, priority := p, isCompleted := false } :: ts)) := by
  by_cases h : (findTask ts d).isSome
  · have hex : ∃ t ∈ ts, t.description = d := by
      simpa [findTask, List.find?_isSome] using h
    refine ⟨⟨fun _ => hex, fun _ => ?_⟩, fun e he => ?_, fun e he => ?_, fun hok => ?_⟩
    · simp [addTask, h]
    · simp [addTask, h]
    · simp [addTask, h] at he
      exact he.symm
    · simp [addTask, h] at hok
  · have hnex : ¬ ∃ t ∈ ts, t.description = d := by
      simpa [findTask, List.find?_isSome] using h
    refine ⟨⟨fun he => ?_, fun hex => absurd hex hnex⟩, fun e he => ?_, fun e he => ?_,
      fun _ => ?_⟩
    · simp [addTask, h] at he
    · simp [addTask, h] at he
    · simp [addTask, h] at he
    · simp only [addTask, h, Bool.false_eq_true, if_false, sortTasks]
      exact (List.perm_insertionSort taskGE _).trans
        (List.perm_append_singleton _ _)

lemma reachable_eg1 :
    Reachable (popNextTask (addTask (addTask [] "a" 1).2 "b" 2).2).2 :=
  Reachable.pop _ (Reachable.add _ "b" 2 (Reachable.add _ "a" 1 Reachable.nil))

/-- Claim C8: in every reachable `tasks_` state no stored task is completed
(`completeTask` sets the flag and immediately erases the task), so the
already-completed branch of `completeTask` is unreachable (every in-range
index succeeds) and no `displayTasks` line carries the "(COMPLETED)" marker. -/
theorem taskManager_never_stores_completed (ts : List Task) (h : Reachable ts) :
    (∀ t ∈ ts, t.isCompleted = false) ∧
    (∀ i : Nat, i < ts.length → (completeTask ts i).1 = Except.ok ()) ∧
    (∀ i : Nat, ∀ t ∈ ts, displayLine i t =
      "[" ++ toString i ++ "] Prio: " ++ toString t.priority ++ " | Desc: "
        ++ t.description) := by
  have hnc := h.notCompleted
  refine ⟨hnc, ?_, ?_⟩
  · intro i hi
    have hfalse : ts[i].isCompleted = false := hnc _ (List.getElem_mem hi)
    unfold completeTask
    simp [hi, hfalse]
  · intro i t ht
    simp [displayLine, hnc t ht]

/-- Witness for C8 at the concrete state reached by adding tasks "a" and "b"
and then popping the front. -/
theorem taskManager_never_stores_completed_witness :
    (∀ t ∈ (popNextTask (addTask (addTask [] "a" 1).2 "b" 2).2).2,
      t.isCompleted = false) ∧
    (∀ i : Nat, i < (popNextTask (addTask (addTask [] "a" 1).2 "b" 2).2).2.length →
      (completeTask (popNextTask (addTask (addTask [] "a" 1).2 "b" 2).2).2 i).1 =
        Except.ok ()) ∧
    (∀ i : Nat, ∀ t ∈ (popNextTask (addTask (addTask [] "a" 1).2 "b" 2).2).2,
      displayLine i t =
        "[" ++ toString i ++ "] Prio: " ++ toString t.priority ++ " | Desc: "
          ++ t.description) :=
  taskManager_never_stores_completed _ reachable_eg1

end ULAB10

namespace ULAB3

/-- The `Book` struct of the U.LAB.3 library catalog. -/
structure Book where
  isbn : String
  title : String
  author : String
  year : Int
  is_available : Bool
  pages : Int
  deriving DecidableEq, Repr, Inhabited

/-- `borrow_book`: scan the vector from the front; at the first book whose
ISBN matches, either clear its availability flag and report success, or
report failure if it is already borrowed; report failure when no ISBN
matches.  The returned list is the vector after the call. -/
def borrow_book : List Book → String → Bool × List Book
  | [], _ => (false, [])
  | b :: rest, isbn =>
    if b.isbn = isbn then
      if b.is_available then (true, { b with is_available := false } :: rest)
      else (false, b :: rest)
    else
      let r := borrow_book rest isbn
      (r.1, b :: r.2)

/-- `return_book`: scan the vector from the front; at the first book whose
ISBN matches, either set its availability flag and report success, or report
failure if it is already available; report failure when no ISBN matches. -/
def return_book : List Book → String → Bool × List Book
  | [], _ => (false, [])
  | b :: rest, isbn =>
    if b.isbn = isbn then
      if b.is_available then (false, b :: rest)
      else (true, { b with is_available := true } :: rest)
    else
      let r := return_book rest isbn
      (r.1, b :: r.2)

/-- Claim C3: a successful `borrow_book` followed by `return_book` on the same
ISBN is a round trip: the return succeeds and restores the vector exactly,
and the borrow changed only the one matched book, flipping its
`is_available` flag and nothing else. -/
theorem borrow_return_roundtrip (books : List Book) (isbn : String)
    (books' : List Book) (h : borrow_book books isbn = (true, books')) :
    return_book books' isbn = (true, books) ∧
    ∃ i : Nat, i < books.length ∧
      (books.getD i default).isbn = isbn ∧
      (books.getD i default).is_available = true ∧
      books' = books.set i { books.getD i default with is_available := false } := by
  induction books generalizing books' with
  | nil => simp [borrow_book] at h
  | cons b rest ih =>
    by_cases hb : b.isbn = isbn
    · subst hb
      by_cases hav : b.is_available
      · have hbooks' : { b with is_available := false } :: rest = books' := by
          simpa [borrow_book, hav] using h
        subst hbooks'
        have hflip : { b with is_available := true } = b := by
          cases b
          simp_all
        constructor
        · simp [return_book, hflip]
        · exact ⟨0, by simp, by simp, by simpa using hav, by simp⟩
      · simp [borrow_book, hav] at h
    · have h2 : (borrow_book rest isbn).1 = true ∧
          b :: (borrow_book rest isbn).2 = books' := by
        simpa [borrow_book, hb] using h
      obtain ⟨hr1, hr2⟩ := h2
      have hrest : borrow_book rest isbn = (true, (borrow_book rest isbn).2) := by
        rw [← hr1]
      obtain ⟨hret, i, hi, hisbn, hava, hset⟩ := ih _ hrest
      subst hr2
      constructor
      · simp [return_book, hb, hret]
      · exact ⟨i + 1, by simpa using hi, by simpa using hisbn, by simpa using hava,
          by simp [hset]⟩

/-- Witness for C3 on a one-book catalog with an available book. -/
theorem borrow_return_roundtrip_witness :
    return_book [⟨"101-1-111-11111-1", "T", "A", 2001, false, 300⟩] "101-1-111-11111-1" =
      (true, [⟨"101-1-111-11111-1", "T", "A", 2001, true, 300⟩]) ∧
    ∃ i : Nat, i < ([⟨"101-1-111-11111-1", "T", "A", 2001, true, 300⟩] : List Book).length ∧
      (([⟨"101-1-111-11111-1", "T", "A", 2001, true, 300⟩] : List Book).getD i default).isbn
        = "101-1-111-11111-1" ∧
      (([⟨"101-1-111-11111-1", "T", "A", 2001, true, 300⟩] : List Book).getD i
          default).is_available = true ∧
      [⟨"101-1-111-11111-1", "T", "A", 2001, false, 300⟩] =
        ([⟨"101-1-111-11111-1", "T", "A", 2001, true, 300⟩] : List Book).set i
          { ([⟨"101-1-111-11111-1", "T", "A", 2001, true, 300⟩] : List Book).getD i default
              with is_available := false } :=
  borrow_return_roundtrip [⟨"101-1-111-11111-1", "T", "A", 2001, true, 300⟩]
    "101-1-111-11111-1" [⟨"101-1-111-11111-1", "T", "A", 2001, false, 300⟩] (by decide)

end ULAB3

namespace ULAB1

/-- Wrap an integer into the 32-bit two's-complement range, modelling the
`int` arithmetic of U.LAB.1 with wrap-around. -/
def wrap32 (n : Int) : Int := (n + 2 ^ 31) % 2 ^ 32 - 2 ^ 31

/-- `INT_MIN` from `<climits>` on a 32-bit `int`. -/
def INT_MIN : Int := -(2 ^ 31)

/-- `calculateSum`: running `int` sum of the strength array, each addition
wrapping. -/
def calculateSum (array : List Int) : Int :=
  array.foldl (fun sum num => wrap32 (sum + num)) 0

/-- The loop of `findKnightWithMaxSum`: `i` is the current index, `maxSum`
and `knightIndex` the best sum and its index so far; a knight replaces the
best exactly when its sum is strictly greater. -/
def findAux : List (List Int) → Int → Int → Int → Int
  | [], _, _, knightIndex => knightIndex
  | k :: rest, i, maxSum, knightIndex =>
    if maxSum < calculateSum k then findAux rest (i + 1) (calculateSum k) i
    else findAux rest (i + 1) maxSum knightIndex

/-- `findKnightWithMaxSum`: scan all knights starting from
`maxSum = INT_MIN`, `knightIndex = -1`. -/
def findKnightWithMaxSum (knights : List (List Int)) : Int :=
  findAux knights 0 INT_MIN (-1)

lemma findAux_spec (l : List (List Int)) (i maxSum idx : Int) :
    ((∀ k ∈ l, calculateSum k ≤ maxSum) ∧ findAux l i maxSum idx = idx) ∨
    (∃ j : Nat, j < l.length ∧ findAux l i maxSum idx = i + (j : Int) ∧
      maxSum < calculateSum (l.getD j []) ∧
      (∀ k ∈ l, calculateSum k ≤ calculateSum (l.getD j [])) ∧
      (∀ j' : Nat, j' < j →
        calculateSum (l.getD j' []) < calculateSum (l.getD j []))) := by
  induction l generalizing i maxSum idx with
  | nil => exact Or.inl ⟨fun k hk => absurd hk (List.not_mem_nil k), rfl⟩
  | cons a rest ih =>
    by_cases hcond : maxSum < calculateSum a
    · rcases ih (i + 1) (calculateSum a) i with ⟨hall, heq⟩ |
        ⟨j, hj, heq, hgt, hmax, hfirst⟩
      · refine Or.inr ⟨0, by simp, ?_, by simpa using hcond, ?_, ?_⟩
        · simp only [findAux, if_pos hcond]
          rw [heq]
          push_cast
          ring
        · intro k hk
          rcases List.mem_cons.mp hk with rfl | hk2
          · simp
          · simpa using hall k hk2
        · intro j' hj'
          exact absurd hj' (Nat.not_lt_zero j')
      · refine Or.inr ⟨j + 1, by simpa using Nat.succ_lt_succ hj, ?_, ?_, ?_, ?_⟩
        · simp only [findAux, if_pos hcond]
          rw [heq]
          push_cast
          ring
        · exact lt_trans hcond (by simpa [List.getD_cons_succ] using hgt)
        · intro k hk
          rcases List.mem_cons.mp hk with rfl | hk2
          · simpa [List.getD_cons_succ] using le_of_lt hgt
          · simpa [List.getD_cons_succ] using hmax k hk2
        · intro j' hj'
          cases j' with
          | zero => simpa [List.getD_cons_succ] using hgt
          | succ j'' =>
            simpa [List.getD_cons_succ] using hfirst j'' (Nat.lt_of_succ_lt_succ hj')
    · rcases ih (i + 1) maxSum idx with ⟨hall, heq⟩ | ⟨j, hj, heq, hgt, hmax, hfirst⟩
      · refine Or.inl ⟨?_, by simp only [findAux, if_neg hcond]; exact heq⟩
        intro k hk
        rcases List.mem_cons.mp hk with rfl | hk2
        · exact not_lt.mp hcond
        · exact hall k hk2
      · refine Or.inr ⟨j + 1, by simpa using Nat.succ_lt_succ hj, ?_, ?_, ?_, ?_⟩
        · simp only [findAux, if_neg hcond]
          rw [heq]
          push_cast
          ring
        · simpa [List.getD_cons_succ] using hgt
        · intro k hk
          rcases List.mem_cons.mp hk with rfl | hk2
          · exact le_of_lt (lt_of_le_of_lt (not_lt.mp hcond)
              (by simpa [List.getD_cons_succ] using hgt))
          · simpa [List.getD_cons_succ] using hmax k hk2
        · intro j' hj'
          cases j' with
          | zero =>
            exact lt_of_le_of_lt (by simpa using not_lt.mp hcond)
              (by simpa [List.getD_cons_succ] using hgt)
          | succ j'' =>
            simpa [List.getD_cons_succ] using hfirst j'' (Nat.lt_of_succ_lt_succ hj')

/-- Counterexample to claim C4 as stated: on the non-empty input holding one
knight whose single strength is `INT_MIN`, the wrapped sum equals `INT_MIN`,
the strict comparison against the initial `maxSum = INT_MIN` never fires, and
`findKnightWithMaxSum` returns `-1` instead of index `0`. -/
theorem findKnightWithMaxSum_counterexample :
    findKnightWithMaxSum [[-(2 ^ 31)]] = -1 ∧
    ([[-(2 ^ 31)]] : List (List Int)) ≠ [] ∧
    (0 : Int) ≠ -1 := by
  refine ⟨by decide, by simp, by decide⟩

/-- Claim C4 (amended): for every non-empty vector of knights, if at least one
knight's wrapped sum exceeds `INT_MIN` then `findKnightWithMaxSum` returns the
smallest index whose sum is greater than or equal to the sum of every knight;
if every knight's sum is `INT_MIN` it returns `-1`. -/
theorem findKnightWithMaxSum_amended (knights : List (List Int))
    (_hne : knights ≠ []) :
    if ∀ k ∈ knights, calculateSum k ≤ INT_MIN then
      findKnightWithMaxSum knights = -1
    else
      ∃ j : Nat, j < knights.length ∧ findKnightWithMaxSum knights = (j : Int) ∧
        (∀ k ∈ knights, calculateSum k ≤ calculateSum (knights.getD j [])) ∧
        (∀ j' : Nat, j' < j →
          calculateSum (knights.getD j' []) < calculateSum (knights.getD j [])) := by
  rcases findAux_spec knights 0 INT_MIN (-1) with ⟨hall, heq⟩ |
    ⟨j, hj, heq, hgt, hmax, hfirst⟩
  · rw [if_pos hall]
    exact heq
  · rw [if_neg ?_]
    · exact ⟨j, hj, by simpa [findKnightWithMaxSum] using heq, hmax, hfirst⟩
    · intro hall
      have hmem : knights.getD j [] ∈ knights := by
        rw [List.getD_eq_getElem _ _ hj]
        exact List.getElem_mem hj
      exact absurd (hall _ hmem) (not_le.mpr hgt)

/-- Witness for the amended C4 on the two-knight input `[[5], [7]]`, whose
sums are 5 and 7. -/
theorem findKnightWithMaxSum_amended_witness :
    if ∀ k ∈ ([[5], [7]] : List (List Int)), calculateSum k ≤ INT_MIN then
      findKnightWithMaxSum [[5], [7]] = -1
    else
      ∃ j : Nat, j < ([[5], [7]] : List (List Int)).length ∧
        findKnightWithMaxSum [[5], [7]] = (j : Int) ∧
        (∀ k ∈ ([[5], [7]] : List (List Int)),
          calculateSum k ≤ calculateSum (([[5], [7]] : List (List Int)).getD j [])) ∧
        (∀ j' : Nat, j' < j →
          calculateSum (([[5], [7]] : List (List Int)).getD j' []) <
            calculateSum (([[5], [7]] : List (List Int)).getD j [])) :=
  findKnightWithMaxSum_amended [[5], [7]] (by simp)

end ULAB1

namespace ULAB5

/-- The protected size fields of `Figure` in U.LAB.5; `double` is modelled by
`ℚ` (the program only ever compares sizes against zero and stores them). -/
structure Figure where
  size1 : ℚ
  size2 : ℚ
  size3 : ℚ
  deriving DecidableEq, Repr

/-- `Figure::setSize1`: stores any non-negative argument (zero included) and
throws `std::invalid_argument` on a negative one, before any mutation. -/
def setSize1 (f : Figure) (p1 : ℚ) : Except String Unit × Figure :=
  if 0 ≤ p1 then (Except.ok (), { f with size1 := p1 })
  else (Except.error "Size must be greater than zero", f)

/-- `Figure::setSize2`, same validation for the second size field. -/
def setSize2 (f : Figure) (p2 : ℚ) : Except String Unit × Figure :=
  if 0 ≤ p2 then (Except.ok (), { f with size2 := p2 })
  else (Except.error "Size must be greater than zero", f)

/-- `Figure::setSize3`, same validation for the third size field. -/
def setSize3 (f : Figure) (p3 : ℚ) : Except String Unit × Figure :=
  if 0 ≤ p3 then (Except.ok (), { f with size3 := p3 })
  else (Except.error "Size must be greater than zero", f)

/-- Claim C5: each setter throws exactly when its argument is strictly
negative (zero is accepted and stored) and on a throw all three stored fields
are unchanged; otherwise only the targeted field becomes the argument (the
record update leaves the other two fields untouched). -/
theorem setSize_validation (f : Figure) (p : ℚ) :
    (setSize1 f p = if p < 0 then (Except.error "Size must be greater than zero", f)
      else (Except.ok (), { f with size1 := p })) ∧
    (setSize2 f p = if p < 0 then (Except.error "Size must be greater than zero", f)
      else (Except.ok (), { f with size2 := p })) ∧
    (setSize3 f p = if p < 0 then (Except.error "Size must be greater than zero", f)
      else (Except.ok (), { f with size3 := p })) := by
  by_cases h : 0 ≤ p
  · simp [setSize1, setSize2, setSize3, h, not_lt.mpr h]
  · simp [setSize1, setSize2, setSize3, h, not_le.mp h]

/-- A stored figure of the `Geometry_Dash` collection (the concrete subclasses
Square, Rectangle and Triangle, tagged with their constructor arguments); for
the capacity claim only its presence in the vector matters. -/
inductive Shape where
  | square (side : ℚ)
  | rectangle (width height : ℚ)
  | triangle (a b c : ℚ)
  deriving DecidableEq, Repr

/-- The state of a `Geometry_Dash` collection: the figure vector and the
capacity `maxSize`, which no operation modifies. -/
structure Geometry_Dash where
  figures : List Shape
  maxSize : Nat
  deriving DecidableEq, Repr

/-- `Geometry_Dash::Geometry_Dash(size_t max = 15)`: the collection starts
empty with the given capacity. -/
def Geometry_Dash.start (max : Nat := 15) : Geometry_Dash :=
  { figures := [], maxSize := max }

/-- `Geometry_Dash::addFigure`: appends when the current count is below
`maxSize` and reports success, otherwise reports failure and changes
nothing. -/
def addFigure (g : Geometry_Dash) (figure : Shape) : Bool × Geometry_Dash :=
  if g.figures.length < g.maxSize then
    (true, { g with figures := g.figures ++ [figure] })
  else (false, g)

/-- `Geometry_Dash::removeFigure`: erases the figure at a valid index. -/
def removeFigure (g : Geometry_Dash) (index : Nat) : Bool × Geometry_Dash :=
  if index < g.figures.length then
    (true, { g with figures := g.figures.eraseIdx index })
  else (false, g)

/-- `Geometry_Dash::clear`: drop all figures. -/
def clearFigures (g : Geometry_Dash) : Geometry_Dash := { g with figures := [] }

/-- The figure-adding loop of `Geometry_Dash::generateRandomFigures`: the
randomly generated figures are passed as the list `fs` (the random count
drawn from 5..15 is its length), each one pushed directly while
`figures.size() < maxSize` holds; the loop exits as soon as the collection is
full. -/
def generateLoop (g : Geometry_Dash) : List Shape → Geometry_Dash
  | [] => g
  | figure :: rest =>
    if g.figures.length < g.maxSize then
      generateLoop { g with figures := g.figures ++ [figure] } rest
    else g

/-- Collection states reachable from a freshly constructed `Geometry_Dash`
by any sequence of `addFigure`, `removeFigure`, `clear` and
`generateRandomFigures` calls. -/
inductive ReachableGD : Geometry_Dash → Prop where
  | start (max : Nat) : ReachableGD (Geometry_Dash.start max)
  | add (g : Geometry_Dash) (s : Shape) : ReachableGD g → ReachableGD (addFigure g s).2
  | remove (g : Geometry_Dash) (i : Nat) :
      ReachableGD g → ReachableGD (removeFigure g i).2
  | clear (g : Geometry_Dash) : ReachableGD g → ReachableGD (clearFigures g)
  | generate (g : Geometry_Dash) (fs : List Shape) :
      ReachableGD g → ReachableGD (generateLoop g fs)

lemma generateLoop_maxSize (g : Geometry_Dash) (fs : List Shape) :
    (generateLoop g fs).maxSize = g.maxSize := by
  induction fs generalizing g with
  | nil => rfl
  | cons f rest ih =>
    by_cases h : g.figures.length < g.maxSize
    · rw [generateLoop, if_pos h, ih]
    · rw [generateLoop, if_neg h]

lemma generateLoop_cap (g : Geometry_Dash) (fs : List Shape)
    (h : g.figures.length ≤ g.maxSize) :
    (generateLoop g fs).figures.length ≤ g.maxSize := by
  induction fs generalizing g with
  | nil => exact h
  | cons f rest ih =>
    by_cases hlt : g.figures.length < g.maxSize
    · rw [generateLoop, if_pos hlt]
      exact ih { g with figures := g.figures ++ [f] } (by simp; omega)
    · rw [generateLoop, if_neg hlt]
      exact h

lemma ReachableGD.cap {g : Geometry_Dash} (h : ReachableGD g) :
    g.figures.length ≤ g.maxSize := by
  induction h with
  | start max => simp [Geometry_Dash.start]
  | add g s _ ih =>
    by_cases hlt : g.figures.length < g.maxSize
    · simp only [addFigure, if_pos hlt]
      simpa using hlt
    · simpa [addFigure, hlt] using ih
  | remove g i _ ih =>
    by_cases hlt : i < g.figures.length
    · simp only [removeFigure, if_pos hlt]
      exact le_trans (List.Sublist.length_le (List.eraseIdx_sublist _ _)) ih
    · simpa [removeFigure, hlt] using ih
  | clear g _ _ => simp [clearFigures]
  | generate g fs _ ih =>
    rw [show (generateLoop g fs).maxSize = g.maxSize from generateLoop_maxSize g fs]
    exact generateLoop_cap g fs ih

/-- Claim C9: in every reachable collection state the figure count never
exceeds `maxSize`; `addFigure` appends and returns `true` exactly when the
count is below `maxSize` and otherwise returns `false` leaving the collection
unchanged; and the `generateRandomFigures` loop never pushes the count past
the cap. -/
theorem geometryDash_capacity (g : Geometry_Dash) (h : ReachableGD g) :
    g.figures.length ≤ g.maxSize ∧
    (∀ s : Shape,
      (g.figures.length < g.maxSize →
        addFigure g s = (true, { g with figures := g.figures ++ [s] })) ∧
      (g.maxSize ≤ g.figures.length → addFigure g s = (false, g))) ∧
    (∀ fs : List Shape, (generateLoop g fs).figures.length ≤ g.maxSize) := by
  refine ⟨h.cap, ?_, fun fs => generateLoop_cap g fs h.cap⟩
  intro s
  constructor
  · intro hlt
    rw [addFigure, if_pos hlt]
  · intro hge
    rw [addFigure, if_neg (not_lt.mpr hge)]

/-- Witness for C9 at the state reached from a fresh capacity-2 collection by
one successful `addFigure`. -/
theorem geometryDash_capacity_witness :
    (addFigure (Geometry_Dash.start 2) (Shape.square 1)).2.figures.length ≤
      (addFigure (Geometry_Dash.start 2) (Shape.square 1)).2.maxSize ∧
    (∀ s : Shape,
      ((addFigure (Geometry_Dash.start 2) (Shape.square 1)).2.figures.length <
          (addFigure (Geometry_Dash.start 2) (Shape.square 1)).2.maxSize →
        addFigure (addFigure (Geometry_Dash.start 2) (Shape.square 1)).2 s =
          (true, { (addFigure (Geometry_Dash.start 2) (Shape.square 1)).2 with
            figures := (addFigure (Geometry_Dash.start 2) (Shape.square 1)).2.figures
              ++ [s] })) ∧
      ((addFigure (Geometry_Dash.start 2) (Shape.square 1)).2.maxSize ≤
          (addFigure (Geometry_Dash.start 2) (Shape.square 1)).2.figures.length →
        addFigure (addFigure (Geometry_Dash.start 2) (Shape.square 1)).2 s =
          (false, (addFigure (Geometry_Dash.start 2) (Shape.square 1)).2))) ∧
    (∀ fs : List Shape,
      (generateLoop (addFigure (Geometry_Dash.start 2) (Shape.square 1)).2 fs).figures.length
        ≤ (addFigure (Geometry_Dash.start 2) (Shape.square 1)).2.maxSize) :=
  geometryDash_capacity _
    (ReachableGD.add (Geometry_Dash.start 2) (Shape.square 1) (ReachableGD.start 2))

end ULAB5

namespace ULAB9

/-- `sortMapVectors` of U.LAB.9: `std::for_each` over the map runs
`std::sort` on every stored vector.  The `std::map<int, std::vector<int>>` is
modelled as its association list of (key, vector) entries in iteration order;
sorting a vector neither touches the key nor the set of entries. -/
def sortMapVectors (data : List (Int × List Int)) : List (Int × List Int) :=
  data.map (fun pair => (pair.1, List.insertionSort (· ≤ ·) pair.2))

/-- Claim C7: `sortMapVectors` leaves the keys of the map unchanged (in
order, hence also as a set), and entry-wise the vector stored after the call
is sorted ascending and is a permutation of the vector the same key held
before. -/
theorem sortMapVectors_spec (data : List (Int × List Int)) :
    ((sortMapVectors data).map Prod.fst = data.map Prod.fst) ∧
    List.Forall₂ (fun before after =>
        before.1 = after.1 ∧ List.Sorted (· ≤ ·) after.2 ∧
        List.Perm after.2 before.2)
      data (sortMapVectors data) := by
  constructor
  · simp [sortMapVectors]
  · induction data with
    | nil => exact List.Forall₂.nil
    | cons p rest ih =>
      exact List.Forall₂.cons
        ⟨rfl, List.sorted_insertionSort _ _, List.perm_insertionSort _ _⟩ ih

end ULAB9

namespace ULAB8

/-- A media resource of U.LAB.8: a `Book` or an `Audio`, with the fields its
constructor stores. -/
inductive Media where
  | book (id title author : String)
  | audio (id title : String) (durationSeconds : Int)
  deriving DecidableEq, Repr

/-- `IMedia::getId`: the stored id. -/
def Media.getId : Media → String
  | .book id _ _ => id
  | .audio id _ _ => id

/-- `std::map` lookup (`count` followed by `at`): the value stored at a key,
`none` when the key is absent.  The map is modelled as an association list
whose iteration order the verified claims never observe. -/
def lookupKey {β : Type} : List (String × β) → String → Option β
  | [], _ => none
  | p :: rest, k => if p.1 = k then some p.2 else lookupKey rest k

/-- `std::map::erase`: remove the entry holding the key. -/
def eraseKey {β : Type} : List (String × β) → String → List (String × β)
  | [], _ => []
  | p :: rest, k => if p.1 = k then rest else p :: eraseKey rest k

/-- Mutation through the reference the map hands out (`getUser` returns a
pointer into the map): replace the value stored at the key. -/
def setKey {β : Type} : List (String × β) → String → β → List (String × β)
  | [], _, _ => []
  | p :: rest, k, v => if p.1 = k then (k, v) :: rest else p :: setKey rest k v

/-- `InMemoryMediaRepository`: a vector of owning slots (`none` models the
null `unique_ptr` that `removeMedia`'s `reset()` leaves behind) and a map
from media id to slot index. -/
structure InMemoryMediaRepository where
  storage_ : List (Option Media)
  index_ : List (String × Nat)
  deriving DecidableEq, Repr

/-- `InMemoryMediaRepository::addMedia`: rejects a null pointer and a
duplicate id; otherwise records the id at the next slot index and appends the
media to the storage vector. -/
def addMedia (r : InMemoryMediaRepository) (media : Option Media) :
    Bool × InMemoryMediaRepository :=
  match media with
  | none => (false, r)
  | some m =>
    if (lookupKey r.index_ m.getId).isSome then (false, r)
    else (true, { storage_ := r.storage_ ++ [some m],
                  index_ := r.index_ ++ [(m.getId, r.storage_.length)] })

/-- `InMemoryMediaRepository::removeMedia`: when the id is indexed, null the
slot it points to and drop the index entry. -/
def removeMedia (r : InMemoryMediaRepository) (id : String) :
    Bool × InMemoryMediaRepository :=
  match lookupKey r.index_ id with
  | some idx =>
    (true, { storage_ := r.storage_.set idx none, index_ := eraseKey r.index_ id })
  | none => (false, r)

/-- `InMemoryMediaRepository::findMedia`: follow the index to the slot; the
raw pointer `storage_[idx].get()` is `none` exactly for a null slot. -/
def findMedia (r : InMemoryMediaRepository) (id : String) : Option Media :=
  match lookupKey r.index_ id with
  | some idx => r.storage_.getD idx none
  | none => none

/-- `InMemoryMediaRepository::getAllMedia`: all non-null storage slots in
vector order. -/
def getAllMedia (r : InMemoryMediaRepository) : List Media :=
  r.storage_.reduceOption

/-- `InMemoryMediaRepository::exists`: whether the id is indexed. -/
def mediaExists (r : InMemoryMediaRepository) (id : String) : Bool :=
  (lookupKey r.index_ id).isSome

/-- Repository states reachable from the freshly constructed (empty)
repository by `addMedia` and `removeMedia` calls. -/
inductive ReachableRepo : InMemoryMediaRepository → Prop where
  | empty : ReachableRepo ⟨[], []⟩
  | add (r : InMemoryMediaRepository) (m : Option Media) :
      ReachableRepo r → ReachableRepo (addMedia r m).2
  | remove (r : InMemoryMediaRepository) (id : String) :
      ReachableRepo r → ReachableRepo (removeMedia r id).2

/-- The index/storage consistency invariant of `InMemoryMediaRepository`:
index keys are distinct, every index entry points to a live slot holding a
media with that id, and every live slot is indexed under its media's id. -/
def RepoInv (r : InMemoryMediaRepository) : Prop :=
  (r.index_.map Prod.fst).Nodup ∧
  (∀ id idx, (id, idx) ∈ r.index_ →
    ∃ m : Media, r.storage_.getD idx none = some m ∧ m.getId = id) ∧
  (∀ idx : Nat, ∀ m : Media, r.storage_.getD idx none = some m →
    (m.getId, idx) ∈ r.index_)

lemma lookupKey_isSome_iff {β : Type} (l : List (String × β)) (k : String) :
    (lookupKey l k).isSome = true ↔ k ∈ l.map Prod.fst := by
  induction l with
  | nil => simp [lookupKey]
  | cons p rest ih =>
    by_cases h : p.1 = k
    · simp [lookupKey, h]
    · simp [lookupKey, h, ih, Ne.symm h]

lemma lookupKey_mem {β : Type} {l : List (String × β)} {k : String} {v : β}
    (h : lookupKey l k = some v) : (k, v) ∈ l := by
  induction l with
  | nil => simp [lookupKey] at h
  | cons p rest ih =>
    by_cases hp : p.1 = k
    · rw [lookupKey, if_pos hp] at h
      injection h with h2
      subst h2
      subst hp
      rw [Prod.mk.eta]
      exact List.mem_cons_self p rest
    · rw [lookupKey, if_neg hp] at h
      exact List.mem_cons_of_mem p (ih h)

lemma eraseKey_sublist {β : Type} (l : List (String × β)) (k : String) :
    List.Sublist (eraseKey l k) l := by
  induction l with
  | nil => simp [eraseKey]
  | cons p rest ih =>
    by_cases hp : p.1 = k
    · rw [eraseKey, if_pos hp]
      exact List.sublist_cons_self p rest
    · rw [eraseKey, if_neg hp]
      exact ih.cons₂ p

lemma map_fst_eraseKey {β : Type} (l : List (String × β)) (k : String) :
    (eraseKey l k).map Prod.fst = (l.map Prod.fst).erase k := by
  induction l with
  | nil => rfl
  | cons p rest ih =>
    by_cases hp : p.1 = k
    · rw [eraseKey, if_pos hp]
      simp [List.erase_cons, hp]
    · rw [eraseKey, if_neg hp]
      simp [List.erase_cons, hp, ih]

lemma mem_eraseKey_of_ne {β : Type} {l : List (String × β)} {k : String}
    {q : String × β} (hq : q ∈ l) (hne : q.1 ≠ k) : q ∈ eraseKey l k := by
  induction l with
  | nil => cases hq
  | cons p rest ih =>
    by_cases hp : p.1 = k
    · rw [eraseKey, if_pos hp]
      rcases List.mem_cons.mp hq with rfl | h2
      · exact absurd hp hne
      · exact h2
    · rw [eraseKey, if_neg hp]
      rcases List.mem_cons.mp hq with rfl | h2
      · exact List.mem_cons_self _ _
      · exact List.mem_cons_of_mem p (ih h2)

lemma not_mem_eraseKey_self {β : Type} {l : List (String × β)} {k : String}
    (hnd : (l.map Prod.fst).Nodup) (v : β) : (k, v) ∉ eraseKey l k := by
  intro hmem
  have hk : k ∈ (eraseKey l k).map Prod.fst := List.mem_map_of_mem Prod.fst hmem
  rw [map_fst_eraseKey] at hk
  exact hnd.not_mem_erase hk

lemma eq_of_mem_mem_nodupkeys {β : Type} {l : List (String × β)}
    (hnd : (l.map Prod.fst).Nodup) {k : String} {v w : β}
    (hv : (k, v) ∈ l) (hw : (k, w) ∈ l) : v = w := by
  induction l with
  | nil => cases hv
  | cons p rest ih =>
    have hnd2 := List.nodup_cons.mp hnd
    rcases List.mem_cons.mp hv with rfl | hv2
    · rcases List.mem_cons.mp hw with heq | hw2
      · exact (congrArg Prod.snd heq).symm
      · exact absurd (List.mem_map_of_mem Prod.fst hw2) hnd2.1
    · rcases List.mem_cons.mp hw with rfl | hw2
      · exact absurd (List.mem_map_of_mem Prod.fst hv2) hnd2.1
      · exact ih hnd2.2 hv2 hw2

lemma getD_append_lt (l l' : List (Option Media)) (n : Nat) (h : n < l.length) :
    (l ++ l').getD n none = l.getD n none := by
  simp [List.getD_eq_getElem?_getD, List.getElem?_append_left h]

lemma getD_append_len (l : List (Option Media)) (x : Option Media) :
    (l ++ [x]).getD l.length none = x := by
  simp [List.getD_eq_getElem?_getD]

lemma getD_len_le (l : List (Option Media)) (n : Nat) (h : l.length ≤ n) :
    l.getD n none = none := by
  simp [List.getD_eq_getElem?_getD, List.getElem?_eq_none h]

lemma getD_set_ne (l : List (Option Media)) (i j : Nat) (x : Option Media)
    (h : j ≠ i) : (l.set i x).getD j none = l.getD j none := by
  simp [List.getD_eq_getElem?_getD, List.getElem?_set_ne (Ne.symm h)]

lemma getD_set_self (l : List (Option Media)) (i : Nat) (x : Option Media)
    (h : i < l.length) : (l.set i x).getD i none = x := by
  simp [List.getD_eq_getElem?_getD, List.getElem?_set_self, h]

lemma lt_length_of_getD_eq_some {l : List (Option Media)} {idx : Nat} {m : Media}
    (h : l.getD idx none = some m) : idx < l.length := by
  by_contra hge
  rw [getD_len_le l idx (le_of_not_lt hge)] at h
  cases h

lemma getElem?_of_getD_eq_some {l : List (Option Media)} {i : Nat} {m : Media}
    (h : l.getD i none = some m) : l[i]? = some (some m) := by
  have hlt : i < l.length := lt_length_of_getD_eq_some h
  rw [List.getD_eq_getElem?_getD, List.getElem?_eq_getElem hlt] at h
  rw [List.getElem?_eq_getElem hlt]
  simpa using h

lemma repoInv_add (r : InMemoryMediaRepository) (media : Option Media)
    (h : RepoInv r) : RepoInv (addMedia r media).2 := by
  obtain ⟨hnd, hidx, hslot⟩ := h
  cases media with
  | none => exact ⟨hnd, hidx, hslot⟩
  | some m =>
    by_cases hdup : (lookupKey r.index_ m.getId).isSome
    · simpa [addMedia, hdup] using ⟨hnd, hidx, hslot⟩
    · have hnotin : m.getId ∉ r.index_.map Prod.fst := fun hin =>
        hdup ((lookupKey_isSome_iff _ _).mpr hin)
      simp only [addMedia, hdup, Bool.false_eq_true, if_false]
      refine ⟨?_, ?_, ?_⟩
      · dsimp only
        simpa [List.nodup_append, hnd] using hnotin
      · intro id idx hmem
        dsimp only at hmem ⊢
        rcases List.mem_append.mp hmem with hold | hnew
        · obtain ⟨m', hm', hmid⟩ := hidx id idx hold
          refine ⟨m', ?_, hmid⟩
          rw [getD_append_lt _ _ _ (lt_length_of_getD_eq_some hm')]
          exact hm'
        · have heq := List.mem_singleton.mp hnew
          injection heq with h1 h2
          subst h1
          subst h2
          exact ⟨m, getD_append_len _ _, rfl⟩
      · intro idx m' hm'
        dsimp only at hm' ⊢
        rcases Nat.lt_trichotomy idx r.storage_.length with hlt | heq | hgt
        · rw [getD_append_lt _ _ _ hlt] at hm'
          exact List.mem_append_left _ (hslot idx m' hm')
        · subst heq
          rw [getD_append_len] at hm'
          injection hm' with h1
          subst h1
          exact List.mem_append_right _ (List.mem_singleton.mpr rfl)
        · rw [getD_len_le _ _ (by simpa using hgt)] at hm'
          cases hm'

lemma repoInv_remove (r : InMemoryMediaRepository) (id : String)
    (h : RepoInv r) : RepoInv (removeMedia r id).2 := by
  obtain ⟨hnd, hidx, hslot⟩ := h
  cases hlk : lookupKey r.index_ id with
  | none => simpa [removeMedia, hlk] using ⟨hnd, hidx, hslot⟩
  | some idx =>
    have hmem : (id, idx) ∈ r.index_ := lookupKey_mem hlk
    obtain ⟨m0, hm0, hm0id⟩ := hidx id idx hmem
    simp only [removeMedia, hlk]
    refine ⟨?_, ?_, ?_⟩
    · dsimp only
      rw [map_fst_eraseKey]
      exact hnd.erase id
    · intro id' idx' hmem'
      dsimp only at hmem' ⊢
      have hin : (id', idx') ∈ r.index_ := (eraseKey_sublist _ _).mem hmem'
      obtain ⟨m', hm', hmid'⟩ := hidx id' idx' hin
      by_cases hii : idx' = idx
      · subst hii
        rw [hm0] at hm'
        injection hm' with h1
        subst h1
        rw [hm0id] at hmid'
        subst hmid'
        exact absurd hmem' (not_mem_eraseKey_self hnd idx')
      · refine ⟨m', ?_, hmid'⟩
        rw [getD_set_ne _ _ _ _ hii]
        exact hm'
    · intro idx' m' hm'
      dsimp only at hm' ⊢
      by_cases hii : idx' = idx
      · subst hii
        rw [getD_set_self _ _ _ (lt_length_of_getD_eq_some hm0)] at hm'
        cases hm'
      · rw [getD_set_ne _ _ _ _ hii] at hm'
        have hin := hslot idx' m' hm'
        apply mem_eraseKey_of_ne hin
        intro hgid
        have : idx' = idx :=
          eq_of_mem_mem_nodupkeys hnd (hgid ▸ hin) hmem
        exact hii this

lemma reachable_repoInv {r : InMemoryMediaRepository}
    (h : ReachableRepo r) : RepoInv r := by
  induction h with
  | empty =>
    refine ⟨List.nodup_nil, fun id idx hmem => absurd hmem (List.not_mem_nil _), ?_⟩
    intro idx m hm
    rw [getD_len_le [] idx (Nat.zero_le idx)] at hm
    cases hm
  | add r m _ ih => exact repoInv_add r m ih
  | remove r id _ ih => exact repoInv_remove r id ih

lemma reduceOption_set_none_perm (l : List (Option Media)) (i : Nat) (m : Media)
    (h : l.getD i none = some m) :
    List.Perm ((l.set i none).reduceOption) (l.reduceOption.erase m) := by
  induction l generalizing i with
  | nil =>
    rw [getD_len_le [] i (Nat.zero_le i)] at h
    cases h
  | cons a rest ih =>
    cases i with
    | zero =>
      have ha : a = some m := by simpa using h
      subst ha
      simp only [List.set_cons_zero, List.reduceOption_cons_of_none,
        List.reduceOption_cons_of_some, List.erase_cons_head]
      exact List.Perm.refl _
    | succ n =>
      have h' : rest.getD n none = some m := by simpa using h
      cases a with
      | none =>
        simp only [List.set_cons_succ, List.reduceOption_cons_of_none]
        exact ih n h'
      | some b =>
        by_cases hbm : b = m
        · subst hbm
          have hmem : b ∈ rest.reduceOption := by
            rw [List.reduceOption_mem_iff]
            exact List.getElem?_mem (getElem?_of_getD_eq_some h')
          simp only [List.set_cons_succ, List.reduceOption_cons_of_some,
            List.erase_cons_head]
          exact ((ih n h').cons b).trans (List.perm_cons_erase hmem).symm
        · simp only [List.set_cons_succ, List.reduceOption_cons_of_some,
            List.erase_cons, beq_iff_eq, hbm, if_false]
          exact (ih n h').cons b

/-- Claim C10: in every reachable repository state, `exists(id)` holds
exactly when `findMedia(id)` returns a media whose `getId()` equals `id`,
and `getAllMedia` (the non-null storage slots) carries exactly the media ids
recorded in the index, as a permutation of the index keys. -/
theorem repo_index_storage_consistent (r : InMemoryMediaRepository)
    (h : ReachableRepo r) :
    (∀ id : String, mediaExists r id = true ↔
      ∃ m : Media, findMedia r id = some m ∧ m.getId = id) ∧
    List.Perm ((getAllMedia r).map Media.getId) (r.index_.map Prod.fst) := by
  constructor
  · intro id
    obtain ⟨hnd, hidx, hslot⟩ := reachable_repoInv h
    constructor
    · intro hex
      cases hlk : lookupKey r.index_ id with
      | none =>
        rw [mediaExists, hlk] at hex
        cases hex
      | some idx =>
        obtain ⟨m, hm, hmid⟩ := hidx id idx (lookupKey_mem hlk)
        refine ⟨m, ?_, hmid⟩
        rw [findMedia, hlk]
        exact hm
    · rintro ⟨m, hf, _⟩
      cases hlk : lookupKey r.index_ id with
      | none =>
        rw [findMedia, hlk] at hf
        cases hf
      | some idx => simp [mediaExists, hlk]
  · induction h with
    | empty => simp [getAllMedia]
    | add r media hr ih =>
      cases media with
      | none => exact ih
      | some m =>
        by_cases hdup : (lookupKey r.index_ m.getId).isSome
        · simpa [addMedia, hdup] using ih
        · simp only [addMedia, hdup, Bool.false_eq_true, if_false]
          dsimp only [getAllMedia]
          rw [List.reduceOption_append]
          simp only [List.map_append]
          refine List.Perm.append ih ?_
          simp
    | remove r id hr ih =>
      cases hlk : lookupKey r.index_ id with
      | none => simpa [removeMedia, hlk] using ih
      | some idx =>
        obtain ⟨hnd, hidx, hslot⟩ := reachable_repoInv hr
        obtain ⟨m0, hm0, hm0id⟩ := hidx id idx (lookupKey_mem hlk)
        subst hm0id
        have hm0mem : m0 ∈ r.storage_.reduceOption := by
          rw [List.reduceOption_mem_iff]
          exact List.getElem?_mem (getElem?_of_getD_eq_some hm0)
        have hidkeys : m0.getId ∈ r.index_.map Prod.fst :=
          (lookupKey_isSome_iff _ _).mp (by rw [hlk]; rfl)
        simp only [removeMedia, hlk]
        dsimp only [getAllMedia] at ih ⊢
        rw [map_fst_eraseKey]
        have hperm1 :=
          (reduceOption_set_none_perm r.storage_ idx m0 hm0).map Media.getId
        have p2 : List.Perm (r.storage_.reduceOption.map Media.getId)
            (Media.getId m0 :: (r.storage_.reduceOption.erase m0).map Media.getId) := by
          simpa using (List.perm_cons_erase hm0mem).map Media.getId
        have p3 : List.Perm (r.index_.map Prod.fst)
            (Media.getId m0 :: (r.index_.map Prod.fst).erase m0.getId) :=
          List.perm_cons_erase hidkeys
        exact hperm1.trans ((p2.symm.trans ih).trans p3).cons_inv

/-- A concrete repository reached by two additions and one removal, used to
instantiate the consistency theorem. -/
def repoEg : InMemoryMediaRepository :=
  (removeMedia (addMedia (addMedia ⟨[], []⟩
    (some (Media.book "B101" "The Martian" "Andy Weir"))).2
    (some (Media.audio "A201" "Dune Audiobook" 30000))).2 "B101").2

lemma repoEg_reachable : ReachableRepo repoEg :=
  ReachableRepo.remove _ "B101" (ReachableRepo.add _ _
    (ReachableRepo.add _ _ ReachableRepo.empty))

/-- Witness for C10 at the concrete repository `repoEg`. -/
theorem repo_index_storage_consistent_witness :
    (∀ id : String, mediaExists repoEg id = true ↔
      ∃ m : Media, findMedia repoEg id = some m ∧ m.getId = id) ∧
    List.Perm ((getAllMedia repoEg).map Media.getId) (repoEg.index_.map Prod.fst) :=
  repo_index_storage_consistent repoEg repoEg_reachable

/-- The `User` class of U.LAB.8: id, name, and the ids of the media issued to
this user. -/
structure User where
  id_ : String
  name_ : String
  issuedMediaIds_ : List String
  deriving DecidableEq, Repr

/-- `User::hasMedia`: `std::find` over the issued list succeeds. -/
def User.hasMedia (u : User) (mediaId : String) : Bool :=
  decide (mediaId ∈ u.issuedMediaIds_)

/-- `User::issueMedia`: push the id onto the issued list. -/
def User.issueMedia (u : User) (mediaId : String) : User :=
  { u with issuedMediaIds_ := u.issuedMediaIds_ ++ [mediaId] }

/-- `User::returnMedia`: the erase-remove idiom drops every copy of the id
from the issued list. -/
def User.returnMedia (u : User) (mediaId : String) : User :=
  { u with issuedMediaIds_ := u.issuedMediaIds_.filter (fun x => x ≠ mediaId) }

/-- `InMemoryUserManager`: a map from user id to the owned `User`. -/
structure InMemoryUserManager where
  users_ : List (String × User)
  deriving DecidableEq, Repr

/-- `InMemoryUserManager::addUser`: rejects a null pointer and a duplicate
user id, otherwise stores the user under its id. -/
def addUser (um : InMemoryUserManager) (user : Option User) :
    Bool × InMemoryUserManager :=
  match user with
  | none => (false, um)
  | some u =>
    if (lookupKey um.users_ u.id_).isSome then (false, um)
    else (true, ⟨um.users_ ++ [(u.id_, u)]⟩)

/-- `InMemoryUserManager::isMediaIssued`: some user holds the id. -/
def isMediaIssued (um : InMemoryUserManager) (mediaId : String) : Bool :=
  um.users_.any (fun q => q.2.hasMedia mediaId)

/-- `Library::issueMediaToUser`: fails when the user is unknown, when the
media is not found in the repository, or when some user already holds the id;
otherwise pushes the id onto the user's issued list (through the pointer
`getUser` returned). -/
def issueMediaToUser (repo : InMemoryMediaRepository) (um : InMemoryUserManager)
    (mediaId userId : String) : Bool × InMemoryUserManager :=
  match lookupKey um.users_ userId with
  | none => (false, um)
  | some user =>
    match findMedia repo mediaId with
    | none => (false, um)
    | some _ =>
      if isMediaIssued um mediaId then (false, um)
      else (true, ⟨setKey um.users_ userId (user.issueMedia mediaId)⟩)

/-- `Library::returnMediaFromUser`: fails when the user is unknown or does
not hold the id; otherwise removes the id from that user's issued list. -/
def returnMediaFromUser (um : InMemoryUserManager) (mediaId userId : String) :
    Bool × InMemoryUserManager :=
  match lookupKey um.users_ userId with
  | none => (false, um)
  | some user =>
    if user.hasMedia mediaId then
      (true, ⟨setKey um.users_ userId (user.returnMedia mediaId)⟩)
    else (false, um)

/-- User-manager states reachable from the empty manager by `addUser` (every
`User` is constructed with an empty issued list), `issueMediaToUser` (against
an arbitrary repository state at each step) and `returnMediaFromUser`. -/
inductive ReachableUM : InMemoryUserManager → Prop where
  | empty : ReachableUM ⟨[]⟩
  | addU (um : InMemoryUserManager) (id name : String) :
      ReachableUM um → ReachableUM (addUser um (some ⟨id, name, []⟩)).2
  | issue (um : InMemoryUserManager) (repo : InMemoryMediaRepository)
      (mediaId userId : String) :
      ReachableUM um → ReachableUM (issueMediaToUser repo um mediaId userId).2
  | ret (um : InMemoryUserManager) (mediaId userId : String) :
      ReachableUM um → ReachableUM (returnMediaFromUser um mediaId userId).2

lemma countP_setKey_le_one {β : Type} (p : String × β → Bool)
    (l : List (String × β)) (k : String) (u : β)
    (h0 : List.countP p l = 0) : List.countP p (setKey l k u) ≤ 1 := by
  induction l with
  | nil => simp [setKey]
  | cons q rest ih =>
    rw [List.countP_cons] at h0
    have hq0 : (if p q then 1 else 0) = 0 := by omega
    have hr0 : List.countP p rest = 0 := by omega
    by_cases hq : q.1 = k
    · rw [setKey, if_pos hq, List.countP_cons, hr0]
      split <;> omega
    · rw [setKey, if_neg hq, List.countP_cons, hq0]
      simpa using ih hr0

lemma countP_setKey_le_count {β : Type} (p : String × β → Bool)
    (l : List (String × β)) (k : String) (u : β)
    (hpu : p (k, u) = false) :
    List.countP p (setKey l k u) ≤ List.countP p l := by
  induction l with
  | nil => simp [setKey]
  | cons q rest ih =>
    by_cases hq : q.1 = k
    · rw [setKey, if_pos hq, List.countP_cons, List.countP_cons, hpu]
      simp only [Bool.false_eq_true, if_false]
      omega
    · rw [setKey, if_neg hq, List.countP_cons, List.countP_cons]
      have hih := ih
      omega

lemma countP_setKey_pres {β : Type} (p : String × β → Bool)
    (l : List (String × β)) (k : String) (u w : β)
    (hl : lookupKey l k = some w) (hpres : p (k, u) = p (k, w)) :
    List.countP p (setKey l k u) = List.countP p l := by
  induction l with
  | nil => simp [lookupKey] at hl
  | cons q rest ih =>
    by_cases hq : q.1 = k
    · rw [lookupKey, if_pos hq] at hl
      injection hl with hw
      rw [setKey, if_pos hq, List.countP_cons, List.countP_cons]
      have hpq : p (k, u) = p q := by
        rw [hpres, ← hw, ← hq, Prod.mk.eta]
      rw [hpq]
    · rw [lookupKey, if_neg hq] at hl
      rw [setKey, if_neg hq, List.countP_cons, List.countP_cons, ih hl]

lemma hasMedia_issueMedia_self (u : User) (mediaId : String) :
    (u.issueMedia mediaId).hasMedia mediaId = true := by
  simp [User.hasMedia, User.issueMedia]

lemma hasMedia_issueMedia_ne (u : User) (mediaId id' : String)
    (hne : id' ≠ mediaId) :
    (u.issueMedia mediaId).hasMedia id' = u.hasMedia id' := by
  simp only [User.hasMedia, User.issueMedia]
  rw [decide_eq_decide]
  simp [hne]

lemma hasMedia_returnMedia_self (u : User) (mediaId : String) :
    (u.returnMedia mediaId).hasMedia mediaId = false := by
  simp [User.hasMedia, User.returnMedia, List.mem_filter]

lemma hasMedia_returnMedia_ne (u : User) (mediaId id' : String)
    (hne : id' ≠ mediaId) :
    (u.returnMedia mediaId).hasMedia id' = u.hasMedia id' := by
  simp only [User.hasMedia, User.returnMedia]
  rw [decide_eq_decide]
  simp [List.mem_filter, hne]

lemma reachable_holdersCount {um : InMemoryUserManager} (h : ReachableUM um) :
    ∀ mediaId : String,
      List.countP (fun q => q.2.hasMedia mediaId) um.users_ ≤ 1 := by
  induction h with
  | empty => intro mid; simp
  | addU um id name _ ih =>
    intro mid
    by_cases hdup : (lookupKey um.users_ id).isSome
    · simpa [addUser, hdup] using ih mid
    · simp only [addUser, hdup, Bool.false_eq_true, if_false]
      rw [List.countP_append]
      simpa [List.countP_cons, User.hasMedia] using ih mid
  | issue um repo mediaId userId _ ih =>
    intro mid
    cases hlk : lookupKey um.users_ userId with
    | none => simpa [issueMediaToUser, hlk] using ih mid
    | some user =>
      cases hfm : findMedia repo mediaId with
      | none => simpa [issueMediaToUser, hlk, hfm] using ih mid
      | some med =>
        by_cases hiss : isMediaIssued um mediaId
        · simpa [issueMediaToUser, hlk, hfm, hiss] using ih mid
        · simp only [issueMediaToUser, hlk, hfm, hiss, Bool.false_eq_true, if_false]
          by_cases hmid : mid = mediaId
          · subst hmid
            apply countP_setKey_le_one
            rw [List.countP_eq_zero]
            intro q hq
            simp only [Bool.not_eq_true]
            by_contra hq2
            apply hiss
            rw [isMediaIssued, List.any_eq_true]
            exact ⟨q, hq, by simpa using hq2⟩
          · rw [countP_setKey_pres _ _ _ _ user hlk
              (by simpa using hasMedia_issueMedia_ne user mediaId mid hmid)]
            exact ih mid
  | ret um mediaId userId _ ih =>
    intro mid
    cases hlk : lookupKey um.users_ userId with
    | none => simpa [returnMediaFromUser, hlk] using ih mid
    | some user =>
      by_cases hhas : user.hasMedia mediaId
      · simp only [returnMediaFromUser, hlk, hhas, if_pos]
        by_cases hmid : mid = mediaId
        · subst hmid
          exact le_trans (countP_setKey_le_count _ _ _ _
            (by simpa using hasMedia_returnMedia_self user mid)) (ih mid)
        · rw [countP_setKey_pres _ _ _ _ user hlk
            (by simpa using hasMedia_returnMedia_ne user mediaId mid hmid)]
          exact ih mid
      · simpa [returnMediaFromUser, hlk, hhas] using ih mid

/-- Claim C6: `issueMediaToUser` succeeds exactly when the user exists, the
media id is found in the repository, and no user currently holds the id; and
in every reachable user-manager state each media id is held by at most one
user (the count of holders never exceeds one, preserved by every sequence of
`addUser`, issue and return operations). -/
theorem issueMediaToUser_spec (repo : InMemoryMediaRepository)
    (um : InMemoryUserManager) (h : ReachableUM um) :
    (∀ mediaId userId : String,
      (issueMediaToUser repo um mediaId userId).1 = true ↔
        ((lookupKey um.users_ userId).isSome = true ∧
          (findMedia repo mediaId).isSome = true ∧
          isMediaIssued um mediaId = false)) ∧
    (∀ mediaId : String,
      List.countP (fun q => q.2.hasMedia mediaId) um.users_ ≤ 1) := by
  refine ⟨?_, reachable_holdersCount h⟩
  intro mediaId userId
  cases hlk : lookupKey um.users_ userId with
  | none => simp [issueMediaToUser, hlk]
  | some user =>
    cases hfm : findMedia repo mediaId with
    | none => simp [issueMediaToUser, hlk, hfm]
    | some med =>
      by_cases hiss : isMediaIssued um mediaId
      · simp [issueMediaToUser, hlk, hfm, hiss]
      · simp [issueMediaToUser, hlk, hfm, hiss]

/-- A concrete one-book repository for instantiating the issue theorem. -/
def repoB : InMemoryMediaRepository :=
  (addMedia ⟨[], []⟩ (some (Media.book "B101" "The Martian" "Andy Weir"))).2

/-- A concrete user manager: Alice added, then the book issued to her. -/
def umEg : InMemoryUserManager :=
  (issueMediaToUser repoB (addUser ⟨[]⟩ (some ⟨"U001", "Alice", []⟩)).2
    "B101" "U001").2

lemma umEg_reachable : ReachableUM umEg :=
  ReachableUM.issue _ repoB "B101" "U001"
    (ReachableUM.addU ⟨[]⟩ "U001" "Alice" ReachableUM.empty)

/-- Witness for C6 at the concrete manager `umEg` against repository
`repoB`. -/
theorem issueMediaToUser_spec_witness :
    (∀ mediaId userId : String,
      (issueMediaToUser repoB umEg mediaId userId).1 = true ↔
        ((lookupKey umEg.users_ userId).isSome = true ∧
          (findMedia repoB mediaId).isSome = true ∧
          isMediaIssued umEg mediaId = false)) ∧
    (∀ mediaId : String,
      List.countP (fun q => q.2.hasMedia mediaId) umEg.users_ ≤ 1) :=
  issueMediaToUser_spec repoB umEg umEg_reachable

end ULAB8
